import Mathlib

/-!
# Verification of the boxxy core against its specification

This file gives a shallow embedding of the parts of the boxxy sandbox
(`src/enclosure/fs.rs`, `src/enclosure/rule.rs`, `src/enclosure/linux.rs`,
`src/enclosure/mod.rs`, `src/enclosure/tracer.rs`, `src/config/mod.rs`)
that the spec's testable properties talk about, and proves or refutes
those properties.

Modelling conventions:
* Rust `Path`/`PathBuf` values are modelled at the component level, the
  level at which `push`, `starts_with`, `strip_prefix` and `file_name`
  operate; raw path strings are modelled as `String` together with a
  component-splitting function mirroring `std::path` parsing on Unix.
* Filesystem and process state consulted by the code (symlink status,
  `readlink`, `canonicalize`, tilde expansion, the current directory,
  `which`) is an explicit `World` record; the embedded functions are
  parametric in it, exactly following the control flow of the source.
* Fallible Rust functions returning `Result` become `Except String`.
* Machine integers are `Nat` with explicit bounds where overflow or
  word width matters (the tracer reads 64-bit words byte by byte).
-/

namespace Boxxy

/-- A Unix path as Rust's `std::path` sees it after parsing: whether the
path has a leading root component, plus its list of normal components. -/
structure RPath where
  absolute : Bool
  comps : List String
deriving DecidableEq, Repr

/-- `PathBuf::push` on Unix: pushing a path that has a root replaces the
buffer, pushing a relative path appends its components. -/
def RPath.push (buf p : RPath) : RPath :=
  if p.absolute then p else ⟨buf.absolute, buf.comps ++ p.comps⟩

/-- `Path::strip_prefix("/")`: drop the root component, keeping the
normal components, yielding a relative path. -/
def RPath.stripRoot (p : RPath) : RPath :=
  ⟨false, p.comps⟩

/-- The per-part transformation done by `append_all` in
`src/enclosure/fs.rs`: when the part `starts_with("/")` (i.e. it is
absolute), strip that leading root. -/
def RPath.stripLeading (p : RPath) : RPath :=
  if p.absolute then p.stripRoot else p

/-- `append_all` from `src/enclosure/fs.rs` lines 135-148: push each part
onto `buf`, first stripping a leading `/` from parts that have one. -/
def append_all (buf : RPath) (parts : List RPath) : RPath :=
  parts.foldl (fun b part => b.push part.stripLeading) buf

/-- Split a character list at every occurrence of `sep`, keeping empty
pieces: the char-level behaviour of `String::split` /
`String.splitOn` for a one-character separator. -/
def splitChar (sep : Char) : List Char → List (List Char)
  | [] => [[]]
  | c :: rest =>
    match splitChar sep rest with
    | [] => if c = sep then [[], []] else [[c]]
    | h :: t => if c = sep then [] :: h :: t else (c :: h) :: t

/-- Component list of a raw Unix path string, as `Path::components`
produces it: a leading `/` becomes the pseudo-component `"/"`, repeated
separators collapse, and `"."` components are dropped. -/
def compList (s : String) : List String :=
  (if s.toList.head? = some '/' then ["/"] else []) ++
    ((splitChar '/' s.toList).map List.asString).filter (fun c => c != "" && c != ".")

/-- `Path::starts_with`: component-wise prefix test, the root counting as
a component. -/
def pathStartsWith (p base : String) : Bool :=
  (compList base).isPrefixOf (compList p)

/-- `Path::file_name`: the last component when it is a normal component,
`none` for the root or a trailing `..`. -/
def fileName (s : String) : Option String :=
  match (compList s).getLast? with
  | some c => if c = "/" ∨ c = ".." then none else some c
  | none => none

/-- The filesystem and process environment consulted by `FsDriver` and by
the rule-matching predicates. Raw paths are strings; each field mirrors
one external query the Rust code makes. -/
structure World where
  isSymlink : String → Bool
  readLink : String → Except String String
  canonical : String → Except String String
  tilde : String → String
  cwd : Except String String
  whichBin : String → Option String

/-- The binding `let path = if path.is_symlink() { readlink +
canonicalize } else { path }` at the top of `do_resolve_symlink`
(`src/enclosure/fs.rs` lines 121-125). -/
def resolveStep (w : World) (path : String) : Except String String :=
  if w.isSymlink path then
    match w.readLink path with
    | .error e => .error e
    | .ok l => w.canonical l
  else .ok path

/-- The recursion of `FsDriver::do_resolve_symlink` from
`src/enclosure/fs.rs` lines 113-132, expressed structurally on the
remaining budget `gas = 11 - depth`: the source fails exactly when
`10 < depth`, i.e. when the budget is exhausted; otherwise it resolves
one `readlink` + `canonicalize` step when the path is a symlink and
recurses at `depth + 1` (budget `gas - 1`) while the result is still a
symlink. -/
def doResolveGas (w : World) : Nat → String → Except String String
  | 0, path => .error ("Too many symlinks when resolving path: " ++ path)
  | gas + 1, path =>
    match resolveStep w path with
    | .error e => .error e
    | .ok p2 =>
      if w.isSymlink p2 then doResolveGas w gas p2
      else .ok p2

/-- `FsDriver::do_resolve_symlink` at a given depth: the budget form
above with `gas = 11 - depth` (`10 < depth` is exactly `11 - depth = 0`
over `Nat`). -/
def do_resolve_symlink (w : World) (path : String) (depth : Nat) : Except String String :=
  doResolveGas w (11 - depth) path

/-- `FsDriver::maybe_resolve_symlink`: start the bounded resolution at
depth 0. -/
def maybe_resolve_symlink (w : World) (path : String) : Except String String :=
  do_resolve_symlink w path 0

/-- `FsDriver::fully_expand_path` from `src/enclosure/fs.rs` lines
91-106: tilde-expand, then canonicalize; on canonicalization failure
return the expanded string; otherwise resolve symlinks and try one more
canonicalization, keeping the resolved path when that fails. -/
def fully_expand_path (w : World) (path : String) : Except String String :=
  let expanded := w.tilde path
  match w.canonical expanded with
  | .ok p =>
    match maybe_resolve_symlink w p with
    | .ok p2 =>
      match w.canonical p2 with
      | .ok cp => .ok cp
      | .error _ => .ok p2
    | .error e => .error e
  | .error _ => .ok expanded

/-- `RuleMode` from `src/enclosure/rule.rs`. -/
inductive RuleMode where
  | File
  | Directory
deriving DecidableEq, Repr

/-- `Rule` from `src/enclosure/rule.rs`; the `env` map is modelled as an
association list. -/
structure Rule where
  name : String
  target : String
  rewrite : String
  mode : RuleMode
  context : List String
  only : List String
  env : List (String × String)
deriving DecidableEq, Repr

/-- `Rule::test_program` from `src/enclosure/rule.rs` lines 109-180: the
ordered chain of five equivalence notions between the command program
and one `only` entry, first hit wins, with the `which` comparison as the
final fallback. -/
def test_program (w : World) (program : String) (rule_binary : String) : Except String Bool :=
  if (match fileName rule_binary with
      | some fn => program == fn
      | none => false : Bool) then .ok true
  else if program = rule_binary then .ok true
  else
    match fully_expand_path w program with
    | .error e => .error e
    | .ok expanded_user_program =>
      let whichCmp : Except String Bool :=
        let which_rule_binary := w.whichBin rule_binary
        let which_user_program := w.whichBin program
        if which_rule_binary = which_user_program ∧
            (which_rule_binary.isSome ∨ which_user_program.isSome) then .ok true
        else .ok false
      match w.canonical rule_binary with
      | .ok expanded_rule_binary =>
        if expanded_rule_binary = expanded_user_program then .ok true
        else
          match maybe_resolve_symlink w expanded_rule_binary with
          | .error e => .error e
          | .ok resolved_rule_binary =>
            match maybe_resolve_symlink w expanded_user_program with
            | .error e => .error e
            | .ok resolved_user_program =>
              if resolved_rule_binary = resolved_user_program then .ok true
              else whichCmp
      | .error _ =>
        match maybe_resolve_symlink w expanded_user_program with
        | .error e => .error e
        | .ok resolved_user_program =>
          match fileName resolved_user_program with
          | some fn => if fn = rule_binary then .ok true else whichCmp
          | none =>
            if rule_binary = resolved_user_program then .ok true else whichCmp

/-- The loop body of `Rule::applies_to_binary` over the `only` entries. -/
def appliesGo (w : World) (program : String) : List String → Except String Bool
  | [] => .ok false
  | b :: rest =>
    match test_program w program b with
    | .error e => .error e
    | .ok true => .ok true
    | .ok false => appliesGo w program rest

/-- `Rule::applies_to_binary` from `src/enclosure/rule.rs` lines 94-107:
an empty `only` list matches every binary, otherwise some entry must
pass `test_program`. -/
def applies_to_binary (w : World) (r : Rule) (program : String) : Except String Bool :=
  if r.only.isEmpty then .ok true
  else appliesGo w program r.only

/-- The loop body of `Rule::currently_in_context` over the `context`
entries: tilde-expand, canonicalize, resolve symlinks, then test whether
the current directory starts with the resolved entry. -/
def contextGo (w : World) : List String → Except String Bool
  | [] => .ok false
  | c :: rest =>
    match w.canonical (w.tilde c) with
    | .error e => .error e
    | .ok expanded_context =>
      match maybe_resolve_symlink w expanded_context with
      | .error e => .error e
      | .ok resolved_context =>
        match w.cwd with
        | .error e => .error e
        | .ok pwd =>
          if pathStartsWith pwd resolved_context then .ok true
          else contextGo w rest

/-- `Rule::currently_in_context` from `src/enclosure/rule.rs` lines
66-92: an empty `context` list always matches. -/
def currently_in_context (w : World) (r : Rule) : Except String Bool :=
  if r.context.isEmpty then .ok true
  else contextGo w r.context

/-- The loop body of `BoxxyRules::get_all_applicable_rules` from
`src/enclosure/rule.rs` lines 18-36: a rule is pushed when context and
binary filter both hold, or (the `else if` branch) when the binary
filter alone holds. -/
def applicableGo (w : World) (binary : String) : List Rule → Except String (List Rule)
  | [] => .ok []
  | r :: rest =>
    match currently_in_context w r with
    | .error e => .error e
    | .ok cic =>
      match (if cic then applies_to_binary w r binary else .ok false) with
      | .error e => .error e
      | .ok both =>
        if both then
          match applicableGo w binary rest with
          | .error e => .error e
          | .ok tail => .ok (r :: tail)
        else
          match applies_to_binary w r binary with
          | .error e => .error e
          | .ok atb =>
            if atb then
              match applicableGo w binary rest with
              | .error e => .error e
              | .ok tail => .ok (r :: tail)
            else applicableGo w binary rest

/-- `BoxxyRules::get_all_applicable_rules`. -/
def get_all_applicable_rules (w : World) (rules : List Rule) (binary : String) :
    Except String (List Rule) :=
  applicableGo w binary rules

/-- The uid mapping handed to `map_uids`: an association list of
`old uid → new uid` pairs, standing for the Rust `HashMap<Uid, Uid>`
(keys unique). -/
abbrev Mapping := List (Nat × Nat)

/-- Value of a digit-run, as `str::parse::<u32>` computes it (the source
unwraps the parse; overflow of `u32` is not modelled). -/
def digitsToNat (ds : List Char) : Nat :=
  ds.foldl (fun n c => n * 10 + (c.toNat - '0'.toNat)) 0

/-- The literal part of the `newuidmap` error pattern
`newuidmap: uid range \[(\d+)-.*` that precedes the capture group. -/
def uidPat : List Char :=
  "newuidmap: uid range [".toList

/-- Leftmost-match search for the pattern: at each start position, the
literal must match, then a non-empty maximal digit run, then `-` (the
backtracking semantics of `\d+` followed by `-`); the capture is the
digit run. -/
def findUidCapture : List Char → Option Nat
  | [] => none
  | c :: rest =>
    if uidPat.isPrefixOf (c :: rest) then
      let tail := (c :: rest).drop uidPat.length
      let ds := tail.takeWhile (fun d => d.isDigit)
      let after := tail.dropWhile (fun d => d.isDigit)
      if ds ≠ [] ∧ after.head? = some '-' then some (digitsToNat ds)
      else findUidCapture rest
    else findUidCapture rest

/-- `check_mapping_regex` from `src/enclosure/linux.rs` lines 65-75,
specialised to the uid pattern used at line 26: the first capture of the
regex on the helper's stderr, parsed as a number. -/
def check_mapping_regex (stderr : String) : Option Nat :=
  findUidCapture stderr.toList

/-- One invocation round of `map_uids` from `src/enclosure/linux.rs`
lines 9-35. `helper` gives the stderr the `newuidmap` helper produces
for a given mapping. `none` means the recursion ends (`Ok(())`);
`some uids2` means the reported uid was removed and `map_uids` recurses
on `uids2`. -/
def map_uids_step (helper : Mapping → String) (uids : Mapping) : Option Mapping :=
  match check_mapping_regex (helper uids) with
  | some bad => some (uids.filter (fun p => p.1 ≠ bad))
  | none => none

/-- The recursion of `map_uids` unrolled `n` times: `some uids` when the
recursion is still running with mapping `uids` after `n` rounds, `none`
once it has returned. -/
def map_uids_run (helper : Mapping → String) : Nat → Mapping → Option Mapping
  | 0, uids => some uids
  | n + 1, uids =>
    match map_uids_step helper uids with
    | none => none
    | some uids2 => map_uids_run helper n uids2

/-- `map_uids` terminates on the given helper behaviour and initial
mapping: some finite number of rounds reaches the return. -/
def map_uids_terminates (helper : Mapping → String) (uids : Mapping) : Prop :=
  ∃ n, map_uids_run helper n uids = none

/-- The line written for one reported path in `run_with_tracing`
(`src/enclosure/mod.rs` line 184): `/` followed by the path with the
container-root prefix stripped, components joined by `/`. Paths are
component lists as in the `RPath` model. -/
def renderRel (cr path : List String) : String :=
  "/" ++ String.intercalate "/" (path.drop cr.length)

/-- The parent's report-building state in `run_with_tracing`: the lines
written so far, the `seen_paths` set (as the list of paths in insertion
order) and the counter. -/
structure TraceState where
  buffer : List String
  seen : List (List String)
  counter : Nat
deriving DecidableEq, Repr

/-- One iteration of the report loop in `run_with_tracing`
(`src/enclosure/mod.rs` lines 179-189): a syscall with a path under the
container root that was not seen yet appends a line, marks the path
seen and bumps the counter. -/
def traceStep (cr : List String) (st : TraceState) (ev : Option (List String)) : TraceState :=
  match ev with
  | none => st
  | some path =>
    if cr.isPrefixOf path ∧ ¬ st.seen.contains path then
      { buffer := st.buffer ++ [renderRel cr path]
        seen := st.seen ++ [path]
        counter := st.counter + 1 }
    else st

/-- The report loop over the whole channel contents. -/
def traceFold (cr : List String) (events : List (Option (List String))) : TraceState :=
  events.foldl (traceStep cr) ⟨[], [], 0⟩

/-- The full report buffer: the path lines followed by the trailing
`# total: <n>` line (`src/enclosure/mod.rs` line 190). -/
def trace_report (cr : List String) (events : List (Option (List String))) : List String :=
  (traceFold cr events).buffer ++ ["# total: " ++ toString (traceFold cr events).counter]

/-- `libc::PATH_MAX` on Linux. -/
def PATH_MAX : Nat := 4096

/-- The 64-bit word `PTRACE_PEEKDATA` returns for word index `idx` of a
tracee memory given as a byte sequence `mem` (little-endian assembly of
8 consecutive bytes). -/
def wordOf (mem : Nat → Nat) (idx : Nat) : Nat :=
  mem (8 * idx) + 256 * (mem (8 * idx + 1) + 256 * (mem (8 * idx + 2) + 256 *
    (mem (8 * idx + 3) + 256 * (mem (8 * idx + 4) + 256 * (mem (8 * idx + 5) + 256 *
      (mem (8 * idx + 6) + 256 * mem (8 * idx + 7)))))))

/-- `buf.write_u64::<LittleEndian>(c)`: the 8 little-endian bytes of a
64-bit word. -/
def wordBytesLE (c : Nat) : List Nat :=
  [c % 256, c / 256 % 256, c / 65536 % 256, c / 16777216 % 256,
   c / 4294967296 % 256, c / 1099511627776 % 256,
   c / 281474976710656 % 256, c / 72057594037927936 % 256]

/-- `buf.iter().position(|c| *c == 0)`: index of the first NUL byte. -/
def firstZeroIdx : List Nat → Option Nat
  | [] => none
  | b :: rest =>
    if b = 0 then some 0 else (firstZeroIdx rest).map (· + 1)

/-- The read loop of `read_string` from `src/enclosure/tracer.rs` lines
301-327: read one word; a zero word breaks; otherwise append its LE
bytes, break (truncating at a NUL) once `PATH_MAX` bytes accumulated,
break truncating at the first NUL when one appeared, else advance one
word. The loop appends exactly 8 bytes per iteration and breaks
unconditionally once the buffer reaches `PATH_MAX = 8 * 512` bytes, so
an iteration budget of 512 is never exhausted (the budget-zero branch
is unreachable from `read_string_bytes`, as the spec theorem shows). -/
def read_string_go (mem : Nat → Nat) : Nat → Nat → List Nat → List Nat
  | 0, _, buf => buf
  | fuel + 1, idx, buf =>
    if wordOf mem idx = 0 then buf
    else
      if PATH_MAX ≤ (buf ++ wordBytesLE (wordOf mem idx)).length then
        match firstZeroIdx (buf ++ wordBytesLE (wordOf mem idx)) with
        | some i => (buf ++ wordBytesLE (wordOf mem idx)).take i
        | none => buf ++ wordBytesLE (wordOf mem idx)
      else
        match firstZeroIdx (buf ++ wordBytesLE (wordOf mem idx)) with
        | some i => (buf ++ wordBytesLE (wordOf mem idx)).take i
        | none => read_string_go mem fuel (idx + 1) (buf ++ wordBytesLE (wordOf mem idx))

/-- The byte string `read_string` accumulates when called with an empty
register cache on tracee memory `mem` (addresses relative to the given
base address; UTF-8 decoding of the bytes is not modelled). -/
def read_string_bytes (mem : Nat → Nat) : List Nat :=
  read_string_go mem 512 0 []

/-- `default_rule_mode` from `src/enclosure/rule.rs` lines 183-185: the
serde default for the `mode` field of a YAML-deserialized rule. -/
def default_rule_mode : RuleMode :=
  RuleMode.Directory

/-- One rule built by `load_rules_from_cli_flag` from
`src/config/mod.rs` lines 105-136. `parseMode` stands for
`str::parse::<RuleMode>` used by the three-part form; `none` models the
panics (`unwrap` on a bad mode, the catch-all arm). -/
def cliRuleOfString (parseMode : String → Option RuleMode) (s : String) : Option Rule :=
  match (splitChar ':' s.toList).map List.asString with
  | [src, dest] =>
    some { name := "cli-loaded rule: " ++ src ++ " -> " ++ dest
           target := src
           rewrite := dest
           mode := RuleMode.File
           context := []
           only := []
           env := [] }
  | [src, dest, modeStr] =>
    (parseMode modeStr).map fun m =>
      { name := "cli-loaded rule: " ++ src ++ " -> " ++ dest ++ " (" ++ modeStr ++ ")"
        target := src
        rewrite := dest
        mode := m
        context := []
        only := []
        env := [] }
  | _ => none

/-- `load_rules_from_cli_flag`: map the rule constructor over every
`--rules` argument. -/
def load_rules_from_cli_flag (parseMode : String → Option RuleMode)
    (rules : List String) : Option (List Rule) :=
  rules.mapM (cliRuleOfString parseMode)

/-- A filesystem path for the `ensure_file`/`ensure_directory` model:
the component list from the root (`[]` is `/`). -/
abbrev FsPath := List String

/-- Filesystem state: the set of existing paths besides the root, as a
list. -/
abbrev FsState := List FsPath

/-- `Path::exists`: the root always exists, other paths when recorded. -/
def fsExists (fs : FsState) (p : FsPath) : Bool :=
  p == [] || fs.contains p

/-- `Path::parent`: `none` for the root, otherwise the path without its
last component. -/
def parentOf (p : FsPath) : Option FsPath :=
  match p with
  | [] => none
  | _ => some p.dropLast

/-- The non-empty ancestor chain of `p`, shortest first: the paths
`create_dir_all` has to create. -/
def prefixList (p : FsPath) : List FsPath :=
  (List.range p.length).map fun i => p.take (i + 1)

/-- `FsDriver::touch` (`src/enclosure/fs.rs` lines 75-81):
`OpenOptions::create(true).write(true).open(path)` creates the file when
its parent exists and leaves an existing file in place. -/
def touch (fs : FsState) (p : FsPath) : Except String FsState :=
  match parentOf p with
  | none => .error "cannot open the root as a file"
  | some par =>
    if fsExists fs par then .ok (if fs.contains p then fs else p :: fs)
    else .error "no such parent directory"

/-- `FsDriver::touch_dir` (`fs::create_dir_all`): create the path and
every missing ancestor. -/
def touch_dir (fs : FsState) (p : FsPath) : FsState :=
  (prefixList p).foldl (fun acc q => if fsExists acc q then acc else q :: acc) fs

/-- `Enclosure::ensure_file` from `src/enclosure/mod.rs` lines 413-425:
when the path is missing, first create a missing parent directory chain,
then touch the file, reporting `true`; otherwise report `false`. -/
def ensure_file (fs : FsState) (p : FsPath) : Except String (Bool × FsState) :=
  if fsExists fs p then .ok (false, fs)
  else
    match parentOf p with
    | some par =>
      match touch (if ¬ fsExists fs par then touch_dir fs par else fs) p with
      | .ok fs2 => .ok (true, fs2)
      | .error e => .error e
    | none =>
      match touch fs p with
      | .ok fs2 => .ok (true, fs2)
      | .error e => .error e

/-- `Enclosure::ensure_directory` from `src/enclosure/mod.rs` lines
427-434: create the directory chain when the path is missing, reporting
whether creation happened. -/
def ensure_directory (fs : FsState) (p : FsPath) : Except String (Bool × FsState) :=
  if fsExists fs p then .ok (false, fs)
  else .ok (true, touch_dir fs p)

/-- A world with no symlinks, identity canonicalization and tilde
expansion, no resolvable binaries, and `/tmp/ctx-no` as the current
directory: the setting of the spec's context-filtering scenario. -/
def trivialWorld : World :=
  { isSymlink := fun _ => false
    readLink := fun _ => .error "not a symlink"
    canonical := fun s => .ok s
    tilde := fun s => s
    cwd := .ok "/tmp/ctx-no"
    whichBin := fun _ => none }

/-- The rule of the spec's context-filtering scenario: context
`["/tmp/ctx-yes"]`, empty `only` list. -/
def ctxRule : Rule :=
  { name := "ctx"
    target := "/a"
    rewrite := "/b"
    mode := RuleMode.Directory
    context := ["/tmp/ctx-yes"]
    only := []
    env := [] }

/-- A rule that matches neither by binary (`only` names a binary that
does not equal nor resolve to the program) nor by context. -/
def mismatchRule : Rule :=
  { name := "mismatch"
    target := "/a"
    rewrite := "/b"
    mode := RuleMode.Directory
    context := ["/tmp/ctx-yes"]
    only := ["notls"]
    env := [] }

/-- A rule with a non-trivial `only` filter that matches the program
`ls` by file name. -/
def onlyLsRule : Rule :=
  { name := "only-ls"
    target := "/a"
    rewrite := "/b"
    mode := RuleMode.Directory
    context := ["/tmp/ctx-yes"]
    only := ["/usr/bin/ls"]
    env := [] }

/-- The successor function of a two-cycle of symlinks `/a ↔ /b`. -/
def cycleNext (q : String) : String :=
  if q = "/a" then "/b" else "/a"

/-- A world in which every path is a symlink and resolving any path `q`
yields `cycleNext q`: `/a` and `/b` form a symlink cycle of length 2. -/
def cycleWorld : World :=
  { isSymlink := fun _ => true
    readLink := fun q => .ok (cycleNext q)
    canonical := fun s => .ok s
    tilde := fun s => s
    cwd := .ok "/"
    whichBin := fun _ => none }

/-- A `newuidmap` stderr that always reports uid 42 as unmappable. -/
def badStderr : String :=
  "newuidmap: uid range [42-43) -> [42-43) not allowed"

/-- A helper whose stderr always matches the error pattern with uid 42,
regardless of the requested mapping. -/
def stuckHelper : Mapping → String :=
  fun _ => badStderr

/-- A helper that always succeeds (empty stderr). -/
def okHelper : Mapping → String :=
  fun _ => ""

/-- Concrete tracee memory: the bytes `AAA` followed by NULs. -/
def memAAA (k : Nat) : Nat :=
  if k < 3 then 65 else 0

/-- A concrete container root, as components. -/
def cr0 : List String :=
  ["tmp", "boxxy-containers", "box"]

/-- Concrete channel contents: a path under the container root reported
twice, a pathless syscall, and a path outside the container root. -/
def evs0 : List (Option (List String)) :=
  [some ["tmp", "boxxy-containers", "box", "etc", "hostname"], none,
   some ["tmp", "boxxy-containers", "box", "etc", "hostname"],
   some ["home", "other"]]

/-!
## Theorems

Claim theorems, their helper lemmas, counterexamples and witnesses.
-/

/-- C1: `append_all(r, [p])` equals `r` with `p` pushed after stripping
its leading `/` when it has one (first conjunct, which is the
definitional unfolding); the result is `r` concatenated with `p` minus
its leading root — stated for every `p`, which subsumes the absolute
case since stripping only clears the root flag (second conjunct); and
the result is a prefix-compatible descendant of `r`: `r`'s components
are a prefix of the result's components and the root flag of `r` is
kept (third and fourth conjuncts). -/
theorem append_all_single (r p : RPath) :
    append_all r [p] = r.push p.stripLeading ∧
    append_all r [p] = ⟨r.absolute, r.comps ++ p.stripRoot.comps⟩ ∧
    r.comps <+: (append_all r [p]).comps ∧
    (append_all r [p]).absolute = r.absolute := by
  have h : append_all r [p] = ⟨r.absolute, r.comps ++ p.comps⟩ := by
    obtain ⟨pa, pc⟩ := p
    cases pa <;> simp [append_all, RPath.push, RPath.stripLeading, RPath.stripRoot]
  refine ⟨rfl, ?_, ?_, ?_⟩
  · simpa [RPath.stripRoot] using h
  · rw [h]
    exact List.prefix_append r.comps p.comps
  · rw [h]

/-- The rule filter produces a subsequence of the input rule list
(helper induction over `applicableGo`). -/
theorem applicableGo_sublist (w : World) (binary : String) :
    ∀ rules res, applicableGo w binary rules = .ok res → List.Sublist res rules := by
  intro rules
  induction rules with
  | nil =>
    intro res h
    simp only [applicableGo] at h
    cases h
    exact List.Sublist.slnil
  | cons r rest ih =>
    intro res h
    rcases hcic : currently_in_context w r with e | cic
    · simp only [applicableGo, hcic] at h
      exact Except.noConfusion h
    · cases cic with
      | true =>
        simp only [applicableGo, hcic] at h
        rcases hab : applies_to_binary w r binary with e | atb
        · simp only [hab] at h
          exact Except.noConfusion h
        · cases atb with
          | true =>
            simp only [hab] at h
            rcases hrec : applicableGo w binary rest with e | tail
            · simp only [hrec] at h
              exact Except.noConfusion h
            · simp only [hrec] at h
              cases h
              exact (ih tail hrec).cons₂ r
          | false =>
            simp only [hab] at h
            exact (ih res h).cons r
      | false =>
        simp only [applicableGo, hcic] at h
        rcases hab : applies_to_binary w r binary with e | atb
        · simp only [hab] at h
          exact Except.noConfusion h
        · cases atb with
          | true =>
            simp only [hab] at h
            rcases hrec : applicableGo w binary rest with e | tail
            · simp only [hrec] at h
              exact Except.noConfusion h
            · simp only [hrec] at h
              cases h
              exact (ih tail hrec).cons₂ r
          | false =>
            simp only [hab] at h
            exact (ih res h).cons r

/-- C4: for every world, ruleset and binary, a successful
`get_all_applicable_rules` returns a subsequence of the ruleset: every
returned rule occurs in the input, with at most the input multiplicity,
in the input order. -/
theorem get_all_applicable_rules_sublist (w : World) (rules : List Rule) (binary : String)
    (res : List Rule) (h : get_all_applicable_rules w rules binary = .ok res) :
    List.Sublist res rules :=
  applicableGo_sublist w binary rules res h

/-- Witness for C4 at a concrete ruleset. -/
theorem get_all_applicable_rules_sublist_witness :
    get_all_applicable_rules trivialWorld [ctxRule] "ls" = .ok [ctxRule] ∧
    List.Sublist [ctxRule] [ctxRule] :=
  ⟨rfl, get_all_applicable_rules_sublist trivialWorld [ctxRule] "ls" [ctxRule] rfl⟩

/-- A rule that passes the binary filter is kept by the filter loop
(helper induction over `applicableGo`). -/
theorem applicableGo_mem (w : World) (binary : String) :
    ∀ rules res r, applicableGo w binary rules = .ok res → r ∈ rules →
      applies_to_binary w r binary = .ok true → r ∈ res := by
  intro rules
  induction rules with
  | nil =>
    intro res r _ hmem _
    cases hmem
  | cons r0 rest ih =>
    intro res r h hmem happ
    rcases List.mem_cons.mp hmem with he | hm
    · -- the rule is the head: since it passes the binary filter it is
      -- pushed in either branch
      subst he
      rcases hcic : currently_in_context w r with e | cic
      · simp only [applicableGo, hcic] at h
        exact Except.noConfusion h
      · cases cic with
        | true =>
          simp only [applicableGo, hcic, happ] at h
          rcases hrec : applicableGo w binary rest with e | tail
          · simp only [hrec] at h
            exact Except.noConfusion h
          · simp only [hrec] at h
            cases h
            exact List.mem_cons_self r tail
        | false =>
          simp only [applicableGo, hcic, happ] at h
          rcases hrec : applicableGo w binary rest with e | tail
          · simp only [hrec] at h
            exact Except.noConfusion h
          · simp only [hrec] at h
            cases h
            exact List.mem_cons_self r tail
    · -- the rule is in the tail
      rcases hcic : currently_in_context w r0 with e | cic
      · simp only [applicableGo, hcic] at h
        exact Except.noConfusion h
      · cases cic with
        | true =>
          simp only [applicableGo, hcic] at h
          rcases hab : applies_to_binary w r0 binary with e | atb
          · simp only [hab] at h
            exact Except.noConfusion h
          · cases atb with
            | true =>
              simp only [hab] at h
              rcases hrec : applicableGo w binary rest with e | tail
              · simp only [hrec] at h
                exact Except.noConfusion h
              · simp only [hrec] at h
                cases h
                exact List.mem_cons_of_mem r0 (ih tail r hrec hm happ)
            | false =>
              simp only [hab] at h
              exact ih res r h hm happ
        | false =>
          simp only [applicableGo, hcic] at h
          rcases hab : applies_to_binary w r0 binary with e | atb
          · simp only [hab] at h
            exact Except.noConfusion h
          · cases atb with
            | true =>
              simp only [hab] at h
              rcases hrec : applicableGo w binary rest with e | tail
              · simp only [hrec] at h
                exact Except.noConfusion h
              · simp only [hrec] at h
                cases h
                exact List.mem_cons_of_mem r0 (ih tail r hrec hm happ)
            | false =>
              simp only [hab] at h
              exact ih res r h hm happ

/-- C3: for every world, ruleset, binary and working directory, a rule
of the ruleset is in the result of a successful
`get_all_applicable_rules` whenever `applies_to_binary` holds for it —
whether or not `currently_in_context` holds: membership is decided by
`applies_to_binary` alone, context acting only as an OR. -/
theorem get_all_applicable_rules_mem_of_applies (w : World) (rules : List Rule)
    (binary : String) (res : List Rule) (r : Rule)
    (h : get_all_applicable_rules w rules binary = .ok res) (hmem : r ∈ rules)
    (happ : applies_to_binary w r binary = .ok true) : r ∈ res :=
  applicableGo_mem w binary rules res r h hmem happ

/-- Witness for C3: a rule whose context does not hold (cwd is
`/tmp/ctx-no`, context is `/tmp/ctx-yes`) but whose `only` entry
`/usr/bin/ls` matches the program `ls` by file name is kept. -/
theorem get_all_applicable_rules_mem_of_applies_witness :
    currently_in_context trivialWorld onlyLsRule = .ok false ∧ onlyLsRule ∈ [onlyLsRule] :=
  ⟨rfl,
    get_all_applicable_rules_mem_of_applies trivialWorld [onlyLsRule] "ls" [onlyLsRule]
      onlyLsRule rfl (List.mem_cons_self _ _) rfl⟩

/-- A rule that fails the binary filter is never kept (helper induction
over `applicableGo`). -/
theorem applicableGo_not_mem (w : World) (binary : String) :
    ∀ rules res r, applicableGo w binary rules = .ok res →
      applies_to_binary w r binary = .ok false → r ∉ res := by
  intro rules
  induction rules with
  | nil =>
    intro res r h _
    simp only [applicableGo] at h
    cases h
    exact List.not_mem_nil r
  | cons r0 rest ih =>
    intro res r h happ
    rcases hcic : currently_in_context w r0 with e | cic
    · simp only [applicableGo, hcic] at h
      exact Except.noConfusion h
    · cases cic with
      | true =>
        simp only [applicableGo, hcic] at h
        rcases hab : applies_to_binary w r0 binary with e | atb
        · simp only [hab] at h
          exact Except.noConfusion h
        · cases atb with
          | true =>
            simp only [hab] at h
            rcases hrec : applicableGo w binary rest with e | tail
            · simp only [hrec] at h
              exact Except.noConfusion h
            · simp only [hrec] at h
              cases h
              intro hmem
              rcases List.mem_cons.mp hmem with he | hm
              · subst he
                exact absurd (happ.symm.trans hab) (by simp)
              · exact absurd hm (ih tail r hrec happ)
          | false =>
            simp only [hab] at h
            exact ih res r h happ
      | false =>
        simp only [applicableGo, hcic] at h
        rcases hab : applies_to_binary w r0 binary with e | atb
        · simp only [hab] at h
          exact Except.noConfusion h
        · cases atb with
          | true =>
            simp only [hab] at h
            rcases hrec : applicableGo w binary rest with e | tail
            · simp only [hrec] at h
              exact Except.noConfusion h
            · simp only [hrec] at h
              cases h
              intro hmem
              rcases List.mem_cons.mp hmem with he | hm
              · subst he
                exact absurd (happ.symm.trans hab) (by simp)
              · exact absurd hm (ih tail r hrec happ)
          | false =>
            simp only [hab] at h
            exact ih res r h happ

/-- C2 counterexample: the rule of the context-filtering scenario —
context `["/tmp/ctx-yes"]`, empty `only` list — with the working
directory `/tmp/ctx-no` is NOT excluded by `get_all_applicable_rules`:
the rule is out of context (first conjunct) yet is returned (second
conjunct), because the empty `only` list satisfies `applies_to_binary`
and the filter admits a rule on the binary filter alone. -/
theorem context_filtering_counterexample :
    currently_in_context trivialWorld ctxRule = .ok false ∧
    get_all_applicable_rules trivialWorld [ctxRule] "ls" = .ok [ctxRule] :=
  ⟨rfl, rfl⟩

/-- C2 amended: a rule whose context list is non-empty is excluded by a
successful `get_all_applicable_rules` when the working directory is not
within any expanded context entry only when `applies_to_binary` also
fails for the rule. -/
theorem get_all_applicable_rules_excludes (w : World) (rules : List Rule) (binary : String)
    (res : List Rule) (r : Rule) (h : get_all_applicable_rules w rules binary = .ok res)
    (hctx : currently_in_context w r = .ok false)
    (happ : applies_to_binary w r binary = .ok false) : r ∉ res :=
  applicableGo_not_mem w binary rules res r h happ

/-- Witness for the amended C2: a rule out of context whose `only` list
names a binary that does not match `ls` is excluded. -/
theorem get_all_applicable_rules_excludes_witness :
    get_all_applicable_rules trivialWorld [mismatchRule] "ls" = .ok [] ∧
    mismatchRule ∉ ([] : List Rule) :=
  ⟨rfl,
    get_all_applicable_rules_excludes trivialWorld [mismatchRule] "ls" [] mismatchRule
      rfl rfl rfl⟩

/-- A non-symlink is returned unchanged by the bounded resolver as long
as any budget remains. -/
theorem doResolveGas_not_symlink (w : World) (p : String) (gas : Nat) (hg : gas ≠ 0)
    (h : w.isSymlink p = false) : doResolveGas w gas p = .ok p := by
  cases gas with
  | zero => exact absurd rfl hg
  | succ gas => simp [doResolveGas, resolveStep, h]

/-- When resolution keeps yielding symlinks along the chain `p, next p,
next² p, …`, the resolver walks the chain and exhausts its budget
(helper induction on the budget). -/
theorem doResolveGas_cycle (w : World) (next : String → String) :
    ∀ gas p, gas ≤ 11 →
      (∀ k, k ≤ gas → w.isSymlink (next^[k] p) = true) →
      (∀ k, k < gas → resolveStep w (next^[k] p) = .ok (next^[k + 1] p)) →
      doResolveGas w gas p =
        .error ("Too many symlinks when resolving path: " ++ next^[gas] p) := by
  intro gas
  induction gas with
  | zero =>
    intro p _ _ _
    simp [doResolveGas]
  | succ gas ih =>
    intro p hgas h1 h2
    have hstep : resolveStep w p = .ok (next p) := by
      have h0 := h2 0 (Nat.succ_pos gas)
      simpa using h0
    have hsym : w.isSymlink (next p) = true := by
      have h1' := h1 1 (by omega)
      simpa using h1'
    simp only [doResolveGas, hstep, hsym, if_true]
    have hrec := ih (next p) (by omega)
      (fun k hk => by
        have hx := h1 (k + 1) (by omega)
        simpa [Function.iterate_succ_apply] using hx)
      (fun k hk => by
        have hx := h2 (k + 1) (by omega)
        simpa [Function.iterate_succ_apply] using hx)
    rw [Function.iterate_succ_apply]
    exact hrec

/-- C5: symlink resolution always terminates within the depth bound:
(1) a non-symlink is returned unchanged by `maybe_resolve_symlink`;
(2) at any depth beyond 10 the resolver fails with the "too many
symlinks" error instead of recursing further; (3) a path whose first 11
resolution steps all yield symlinks — in particular every symlink
cycle, of any length ≤ 10 — makes `maybe_resolve_symlink` fail with
the "too many symlinks" error at the path reached when the budget runs
out. -/
theorem maybe_resolve_symlink_spec :
    (∀ (w : World) (p : String), w.isSymlink p = false →
      maybe_resolve_symlink w p = .ok p) ∧
    (∀ (w : World) (p : String) (depth : Nat), 10 < depth →
      do_resolve_symlink w p depth =
        .error ("Too many symlinks when resolving path: " ++ p)) ∧
    (∀ (w : World) (next : String → String) (p : String),
      (∀ k, k ≤ 11 → w.isSymlink (next^[k] p) = true) →
      (∀ k, k < 11 → resolveStep w (next^[k] p) = .ok (next^[k + 1] p)) →
      maybe_resolve_symlink w p =
        .error ("Too many symlinks when resolving path: " ++ next^[11] p)) := by
  refine ⟨?_, ?_, ?_⟩
  · intro w p h
    exact doResolveGas_not_symlink w p 11 (by omega) h
  · intro w p depth hd
    have h0 : 11 - depth = 0 := by omega
    simp [do_resolve_symlink, h0, doResolveGas]
  · intro w next p h1 h2
    exact doResolveGas_cycle w next 11 p (le_refl 11) h1 h2

/-- Witness for C5: a concrete non-symlink, a concrete exhausted depth,
and the two-cycle of symlinks `/a ↔ /b`, which fails with the error
naming the path reached at the depth bound. -/
theorem maybe_resolve_symlink_spec_witness :
    maybe_resolve_symlink trivialWorld "/x" = .ok "/x" ∧
    do_resolve_symlink trivialWorld "/x" 11 =
      .error "Too many symlinks when resolving path: /x" ∧
    maybe_resolve_symlink cycleWorld "/a" =
      .error "Too many symlinks when resolving path: /b" := by
  refine ⟨maybe_resolve_symlink_spec.1 trivialWorld "/x" rfl,
    maybe_resolve_symlink_spec.2.1 trivialWorld "/x" 11 (by omega), ?_⟩
  have h := maybe_resolve_symlink_spec.2.2 cycleWorld cycleNext "/a"
    (fun k _ => rfl)
    (fun k _ => by
      simp [resolveStep, cycleWorld, Function.iterate_succ_apply'])
  rw [h]
  rfl

/-- C6 counterexample: `map_uids` does not terminate for every sequence
of helper outputs. With the mapping `{7 → 7}` and a helper whose stderr
always matches the error pattern reporting uid 42 — which is not a key
of the mapping — every retry removes nothing and re-invokes the helper
on the same mapping, so no number of rounds reaches the return. (There
is also no emptiness check: the loop would keep retrying even on an
empty mapping.) -/
theorem map_uids_stuck_counterexample :
    ¬ map_uids_terminates stuckHelper [(7, 7)] := by
  have hstep : ∀ n, map_uids_run stuckHelper n [(7, 7)] = some [(7, 7)] := by
    intro n
    induction n with
    | zero => rfl
    | succ n ih =>
      have h1 : map_uids_step stuckHelper [(7, 7)] = some [(7, 7)] := rfl
      simp only [map_uids_run, h1]
      exact ih
  rintro ⟨n, hn⟩
  rw [hstep n] at hn
  cases hn

/-- Removing a key that occurs in an association list strictly shrinks
it. -/
theorem length_filter_lt_of_mem_keys (bad : Nat) :
    ∀ uids : Mapping, bad ∈ uids.map Prod.fst →
      (uids.filter (fun p => p.1 ≠ bad)).length < uids.length := by
  intro uids
  induction uids with
  | nil =>
    intro h
    simp at h
  | cons pr rest ih =>
    intro h
    by_cases hp : pr.1 = bad
    · have hle := List.length_filter_le (fun q : Nat × Nat => decide (q.1 ≠ bad)) rest
      have heq : List.filter (fun q : Nat × Nat => decide (q.1 ≠ bad)) (pr :: rest)
          = List.filter (fun q : Nat × Nat => decide (q.1 ≠ bad)) rest :=
        List.filter_cons_of_neg (by simp [hp])
      rw [heq]
      simp only [List.length_cons]
      omega
    · have hmem : bad ∈ rest.map Prod.fst := by
        rcases List.mem_map.mp h with ⟨q, hq, hfst⟩
        rcases List.mem_cons.mp hq with he | hm
        · subst he
          exact absurd hfst hp
        · exact List.mem_map.mpr ⟨q, hm, hfst⟩
      have hlt := ih hmem
      have heq : List.filter (fun q : Nat × Nat => decide (q.1 ≠ bad)) (pr :: rest)
          = pr :: List.filter (fun q : Nat × Nat => decide (q.1 ≠ bad)) rest :=
        List.filter_cons_of_pos (by simp [hp])
      rw [heq]
      simp only [List.length_cons]
      omega

/-- When every stderr the helper can produce reports an id that is a
key of the mapping it was invoked on, each retry strictly shrinks the
mapping, so enough rounds always reach the return (helper induction on
the round budget). -/
theorem map_uids_run_none (helper : Mapping → String)
    (H : ∀ (m : Mapping) (bad : Nat), check_mapping_regex (helper m) = some bad →
      bad ∈ m.map Prod.fst) :
    ∀ n (uids : Mapping), uids.length < n → map_uids_run helper n uids = none := by
  intro n
  induction n with
  | zero =>
    intro uids h
    omega
  | succ n ih =>
    intro uids h
    rcases hs : map_uids_step helper uids with _ | uids2
    · simp only [map_uids_run, hs]
    · simp only [map_uids_run, hs]
      apply ih
      have hlt : uids2.length < uids.length := by
        unfold map_uids_step at hs
        rcases hc : check_mapping_regex (helper uids) with _ | bad
        · rw [hc] at hs
          cases hs
        · rw [hc] at hs
          cases hs
          exact length_filter_lt_of_mem_keys bad uids (H uids bad hc)
      omega

/-- C6 amended: `map_uids` terminates — within `|mapping| + 1` helper
invocations — whenever every stderr the helper produces reports an id
actually present in the current mapping; the retry loop ends when the
stderr stops matching the error pattern. (As the counterexample shows,
termination is not unconditional: the loop has no emptiness check and a
matching stderr reporting an absent id retries forever.) -/
theorem map_uids_terminates_of_reported_present (helper : Mapping → String)
    (H : ∀ (m : Mapping) (bad : Nat), check_mapping_regex (helper m) = some bad →
      bad ∈ m.map Prod.fst) (uids : Mapping) :
    map_uids_run helper (uids.length + 1) uids = none ∧ map_uids_terminates helper uids := by
  have h := map_uids_run_none helper H (uids.length + 1) uids (by omega)
  exact ⟨h, ⟨uids.length + 1, h⟩⟩

/-- Witness for the amended C6: a helper that always succeeds (empty
stderr, which the error pattern does not match) on the one-entry
mapping `{5 → 5}`. -/
theorem map_uids_terminates_of_reported_present_witness :
    map_uids_run okHelper 2 [(5, 5)] = none ∧ map_uids_terminates okHelper [(5, 5)] := by
  have h := map_uids_terminates_of_reported_present okHelper
    (fun m bad hb => Option.noConfusion hb) [(5, 5)]
  simpa using h

/-- One iteration of the report loop preserves the report invariant:
lines mirror the seen paths, seen paths are distinct and all under the
container root, and the counter equals the number of lines. -/
theorem traceStep_inv (cr : List String) (st : TraceState) (ev : Option (List String))
    (h1 : st.buffer = st.seen.map (renderRel cr)) (h2 : st.seen.Nodup)
    (h3 : ∀ p ∈ st.seen, cr.isPrefixOf p = true) (h4 : st.counter = st.buffer.length) :
    (traceStep cr st ev).buffer = (traceStep cr st ev).seen.map (renderRel cr) ∧
    (traceStep cr st ev).seen.Nodup ∧
    (∀ p ∈ (traceStep cr st ev).seen, cr.isPrefixOf p = true) ∧
    (traceStep cr st ev).counter = (traceStep cr st ev).buffer.length := by
  cases ev with
  | none => exact ⟨h1, h2, h3, h4⟩
  | some path =>
    by_cases hc : cr.isPrefixOf path = true ∧ ¬ st.seen.contains path = true
    · simp only [traceStep, if_pos hc]
      have hnotmem : path ∉ st.seen := by
        have hc2 := hc.2
        simpa [List.contains] using hc2
      refine ⟨?_, ?_, ?_, ?_⟩
      · simp [h1]
      · simp [List.nodup_append, h2, hnotmem]
      · intro p hp
        rcases List.mem_append.mp hp with hp | hp
        · exact h3 p hp
        · rcases List.mem_singleton.mp hp with rfl
          exact hc.1
      · simp [h4]
    · simp only [traceStep, if_neg hc]
      exact ⟨h1, h2, h3, h4⟩

/-- The report invariant holds after folding any channel contents
(helper induction over the event list). -/
theorem traceFold_inv (cr : List String) :
    ∀ (events : List (Option (List String))) (st : TraceState),
      st.buffer = st.seen.map (renderRel cr) → st.seen.Nodup →
      (∀ p ∈ st.seen, cr.isPrefixOf p = true) → st.counter = st.buffer.length →
      ((events.foldl (traceStep cr) st).buffer
          = (events.foldl (traceStep cr) st).seen.map (renderRel cr) ∧
        (events.foldl (traceStep cr) st).seen.Nodup ∧
        (∀ p ∈ (events.foldl (traceStep cr) st).seen, cr.isPrefixOf p = true) ∧
        (events.foldl (traceStep cr) st).counter
          = (events.foldl (traceStep cr) st).buffer.length) := by
  intro events
  induction events with
  | nil =>
    intro st h1 h2 h3 h4
    exact ⟨h1, h2, h3, h4⟩
  | cons ev rest ih =>
    intro st h1 h2 h3 h4
    rw [List.foldl_cons]
    obtain ⟨g1, g2, g3, g4⟩ := traceStep_inv cr st ev h1 h2 h3 h4
    exact ih (traceStep cr st ev) g1 g2 g3 g4

/-- C7: for every container root and channel contents, the report
deduplicates by absolute path (the seen paths are pairwise distinct and
each line comes from exactly one of them), every line is the
container-root-relative path prefixed with `/` (`renderRel`), only
paths under the container root are emitted, and the report is the path
lines followed by `# total: <n>` with `n` the number of path lines. -/
theorem run_with_tracing_report_spec (cr : List String)
    (events : List (Option (List String))) :
    (traceFold cr events).seen.Nodup ∧
    (∀ p ∈ (traceFold cr events).seen, cr.isPrefixOf p = true) ∧
    (traceFold cr events).buffer = (traceFold cr events).seen.map (renderRel cr) ∧
    (traceFold cr events).counter = (traceFold cr events).buffer.length ∧
    trace_report cr events =
      (traceFold cr events).buffer
        ++ ["# total: " ++ toString (traceFold cr events).buffer.length] := by
  have h := traceFold_inv cr events ⟨[], [], 0⟩ rfl List.nodup_nil
    (fun p hp => absurd hp (List.not_mem_nil p)) rfl
  obtain ⟨h1, h2, h3, h4⟩ := h
  have h4' : (traceFold cr events).counter = (traceFold cr events).buffer.length := h4
  exact ⟨h2, h3, h1, h4', by rw [trace_report, h4']⟩

/-- Witness for C7 at a concrete container root and channel contents
(one path under the root reported twice, one pathless event, one
outside path). -/
theorem run_with_tracing_report_spec_witness :
    (traceFold cr0 evs0).seen.Nodup ∧
    (∀ p ∈ (traceFold cr0 evs0).seen, cr0.isPrefixOf p = true) ∧
    (traceFold cr0 evs0).buffer = (traceFold cr0 evs0).seen.map (renderRel cr0) ∧
    (traceFold cr0 evs0).counter = (traceFold cr0 evs0).buffer.length ∧
    trace_report cr0 evs0 =
      (traceFold cr0 evs0).buffer
        ++ ["# total: " ++ toString (traceFold cr0 evs0).buffer.length] :=
  run_with_tracing_report_spec cr0 evs0

/-- The little-endian bytes of an assembled word are the original
memory bytes. -/
theorem wordBytesLE_wordOf (mem : Nat → Nat) (idx : Nat) (Hb : ∀ k, mem k < 256) :
    wordBytesLE (wordOf mem idx)
      = [mem (8 * idx), mem (8 * idx + 1), mem (8 * idx + 2), mem (8 * idx + 3),
         mem (8 * idx + 4), mem (8 * idx + 5), mem (8 * idx + 6), mem (8 * idx + 7)] := by
  have h0 := Hb (8 * idx)
  have h1 := Hb (8 * idx + 1)
  have h2 := Hb (8 * idx + 2)
  have h3 := Hb (8 * idx + 3)
  have h4 := Hb (8 * idx + 4)
  have h5 := Hb (8 * idx + 5)
  have h6 := Hb (8 * idx + 6)
  have h7 := Hb (8 * idx + 7)
  simp only [wordBytesLE, wordOf, List.cons.injEq, and_true]
  refine ⟨?_, ?_, ?_, ?_, ?_, ?_, ?_, ?_⟩ <;> omega

/-- A word read by `PTRACE_PEEKDATA` is zero exactly when all eight of
its bytes are zero. -/
theorem wordOf_eq_zero_iff (mem : Nat → Nat) (idx : Nat) :
    wordOf mem idx = 0 ↔
      (mem (8 * idx) = 0 ∧ mem (8 * idx + 1) = 0 ∧ mem (8 * idx + 2) = 0 ∧
        mem (8 * idx + 3) = 0 ∧ mem (8 * idx + 4) = 0 ∧ mem (8 * idx + 5) = 0 ∧
        mem (8 * idx + 6) = 0 ∧ mem (8 * idx + 7) = 0) := by
  simp only [wordOf]
  omega

/-- Extending a byte range by one word appends the next eight bytes. -/
theorem map_range_add_eight (mem : Nat → Nat) (a : Nat) :
    (List.range (a + 8)).map mem
      = (List.range a).map mem ++ [mem a, mem (a + 1), mem (a + 2), mem (a + 3),
          mem (a + 4), mem (a + 5), mem (a + 6), mem (a + 7)] := by
  rw [List.range_add, List.map_append]
  congr 1

/-- Position of the first NUL byte in a mapped byte range, when the
memory's first NUL sits at position `n`. -/
theorem firstZeroIdx_map_range' (mem : Nat → Nat) (n : Nat) (Hn : mem n = 0)
    (Hfirst : ∀ k, k < n → mem k ≠ 0) :
    ∀ L s, s ≤ n →
      firstZeroIdx ((List.range' s L).map mem)
        = if n < s + L then some (n - s) else none := by
  intro L
  induction L with
  | zero =>
    intro s hs
    rw [if_neg (by omega)]
    rfl
  | succ L ihL =>
    intro s hs
    rw [List.range'_succ]
    simp only [List.map_cons, firstZeroIdx]
    by_cases he : s = n
    · subst he
      rw [if_pos Hn, if_pos (by omega)]
      simp
    · have hlt : s < n := by omega
      rw [if_neg (Hfirst s hlt), ihL (s + 1) (by omega)]
      by_cases h2 : n < s + (L + 1)
      · rw [if_pos (by omega), if_pos h2]
        simp
        try omega
      · rw [if_neg (by omega), if_neg h2]
        rfl

/-- The read loop accumulates exactly the bytes before the first NUL,
truncated at `PATH_MAX` (helper induction on the iteration budget). -/
theorem read_string_go_spec (mem : Nat → Nat) (n : Nat) (Hb : ∀ k, mem k < 256)
    (Hn : mem n = 0) (Hfirst : ∀ k, k < n → mem k ≠ 0) :
    ∀ fuel idx buf, idx + fuel = 512 → buf = (List.range (8 * idx)).map mem →
      8 * idx ≤ n → 8 * idx < PATH_MAX →
      read_string_go mem fuel idx buf = (List.range (min n PATH_MAX)).map mem := by
  intro fuel
  induction fuel with
  | zero =>
    intro idx buf hfi hbuf hn8 hlt
    exfalso
    simp only [PATH_MAX] at hlt
    omega
  | succ fuel ih =>
    intro idx buf hfi hbuf hn8 hlt
    simp only [read_string_go]
    by_cases hc : wordOf mem idx = 0
    · rw [if_pos hc]
      have hz := (wordOf_eq_zero_iff mem idx).mp hc
      have hn8' : n = 8 * idx := by
        by_contra hne
        have hlt2 : 8 * idx < n := by omega
        exact Hfirst (8 * idx) hlt2 hz.1
      rw [hbuf, hn8']
      have hmin : min (8 * idx) PATH_MAX = 8 * idx := by
        simp only [PATH_MAX] at *
        omega
      rw [hmin]
    · rw [if_neg hc]
      have hbuf2 : buf ++ wordBytesLE (wordOf mem idx)
          = (List.range (8 * idx + 8)).map mem := by
        rw [hbuf, wordBytesLE_wordOf mem idx Hb, map_range_add_eight]
      rw [hbuf2]
      have hlen : ((List.range (8 * idx + 8)).map mem).length = 8 * idx + 8 := by simp
      rw [hlen]
      by_cases hnw : n < 8 * idx + 8
      · have hfz : firstZeroIdx ((List.range (8 * idx + 8)).map mem) = some n := by
          have h := firstZeroIdx_map_range' mem n Hn Hfirst (8 * idx + 8) 0 (by omega)
          rw [if_pos (by omega)] at h
          rw [List.range_eq_range']
          simpa using h
        have hres : ((List.range (8 * idx + 8)).map mem).take n
            = (List.range (min n PATH_MAX)).map mem := by
          rw [← List.map_take, List.take_range]
          have hmin1 : min n (8 * idx + 8) = n := by omega
          have hmin2 : min n PATH_MAX = n := by
            simp only [PATH_MAX] at *
            omega
          rw [hmin1, hmin2]
        by_cases hfull : PATH_MAX ≤ 8 * idx + 8
        · rw [if_pos hfull]
          simp only [hfz]
          exact hres
        · rw [if_neg hfull]
          simp only [hfz]
          exact hres
      · have hfz : firstZeroIdx ((List.range (8 * idx + 8)).map mem) = none := by
          have h := firstZeroIdx_map_range' mem n Hn Hfirst (8 * idx + 8) 0 (by omega)
          rw [if_neg (by omega)] at h
          rw [List.range_eq_range']
          exact h
        by_cases hfull : PATH_MAX ≤ 8 * idx + 8
        · rw [if_pos hfull]
          simp only [hfz]
          have h4096 : 8 * idx + 8 = PATH_MAX := by
            simp only [PATH_MAX] at *
            omega
          have hmin : min n PATH_MAX = PATH_MAX := by
            simp only [PATH_MAX] at *
            omega
          rw [h4096, hmin]
        · rw [if_neg hfull]
          simp only [hfz]
          exact ih (idx + 1) ((List.range (8 * idx + 8)).map mem) (by omega)
            (by rw [show 8 * (idx + 1) = 8 * idx + 8 from by ring]) (by omega)
            (by simp only [PATH_MAX] at *; omega)

/-- C8: on tracee memory whose first NUL byte sits at position `n` (a
NUL-terminated byte sequence at the given address), `read_string`
accumulates exactly the bytes strictly before the first NUL, truncated
at `PATH_MAX`: the result is the byte prefix of length `min n
PATH_MAX`, it contains no NUL byte, and its length never exceeds
`PATH_MAX`. -/
theorem read_string_spec (mem : Nat → Nat) (n : Nat) (Hb : ∀ k, mem k < 256)
    (Hn : mem n = 0) (Hfirst : ∀ k, k < n → mem k ≠ 0) :
    read_string_bytes mem = (List.range (min n PATH_MAX)).map mem ∧
    (∀ b ∈ read_string_bytes mem, b ≠ 0) ∧
    (read_string_bytes mem).length ≤ PATH_MAX := by
  have h := read_string_go_spec mem n Hb Hn Hfirst 512 0 [] rfl rfl (by omega) (by decide)
  have h' : read_string_bytes mem = (List.range (min n PATH_MAX)).map mem := h
  refine ⟨h', ?_, ?_⟩
  · intro b hb
    rw [h'] at hb
    rcases List.mem_map.mp hb with ⟨k, hk, rfl⟩
    have hkn : k < n := by
      have hkm := List.mem_range.mp hk
      omega
    exact Hfirst k hkn
  · rw [h']
    simp

/-- Witness for C8: memory holding the bytes `AAA` followed by a NUL;
the loop reads `[65, 65, 65]`. -/
theorem read_string_spec_witness :
    read_string_bytes memAAA = (List.range (min 3 PATH_MAX)).map memAAA ∧
    (∀ b ∈ read_string_bytes memAAA, b ≠ 0) ∧
    (read_string_bytes memAAA).length ≤ PATH_MAX :=
  read_string_spec memAAA 3
    (fun k => by simp only [memAAA]; split <;> omega)
    rfl
    (fun k hk => by interval_cases k <;> decide)

/-- C9 counterexample: a rule built from a CLI `--rules src:dst`
argument with no mode component has mode `File`, not `Directory`: the
two-part arm of `load_rules_from_cli_flag` hard-codes the `File` mode
(`src/config/mod.rs` line 115). -/
theorem cli_default_mode_counterexample :
    (load_rules_from_cli_flag (fun _ => none) ["a:b"]).map (List.map Rule.mode)
      = some [RuleMode.File] ∧ RuleMode.File ≠ RuleMode.Directory :=
  ⟨rfl, by decide⟩

/-- C9 amended: a rule deserialized from YAML without an explicit mode
field gets the serde default `default_rule_mode`, which is `Directory`;
but a rule built from a CLI `--rules src:dst` argument with no mode
component gets mode `File`. -/
theorem rule_mode_defaults (pm : String → Option RuleMode) (s src dest : String)
    (h : (splitChar ':' s.toList).map List.asString = [src, dest]) :
    default_rule_mode = RuleMode.Directory ∧
    cliRuleOfString pm s = some
      { name := "cli-loaded rule: " ++ src ++ " -> " ++ dest
        target := src
        rewrite := dest
        mode := RuleMode.File
        context := []
        only := []
        env := [] } := by
  refine ⟨rfl, ?_⟩
  simp only [cliRuleOfString, h]

/-- Witness for the amended C9 at the CLI argument `a:b`. -/
theorem rule_mode_defaults_witness :
    default_rule_mode = RuleMode.Directory ∧
    cliRuleOfString (fun _ => none) "a:b" = some
      { name := "cli-loaded rule: a -> b"
        target := "a"
        rewrite := "b"
        mode := RuleMode.File
        context := []
        only := []
        env := [] } :=
  rule_mode_defaults (fun _ => none) "a:b" "a" "b" rfl

/-- Folding missing-directory creation over a path list preserves every
existing path. -/
theorem fsExists_foldl_mono (l : List FsPath) :
    ∀ (fs : FsState) (q : FsPath), fsExists fs q = true →
      fsExists (l.foldl (fun acc x => if fsExists acc x then acc else x :: acc) fs) q
        = true := by
  induction l with
  | nil =>
    intro fs q h
    exact h
  | cons x rest ih =>
    intro fs q h
    rw [List.foldl_cons]
    apply ih
    by_cases hx : fsExists fs x = true
    · rw [if_pos hx]
      exact h
    · rw [if_neg hx]
      simp only [fsExists, List.contains_cons, Bool.or_eq_true] at h ⊢
      tauto

/-- Folding missing-directory creation over a path list makes every
listed path exist. -/
theorem fsExists_foldl_mem (l : List FsPath) :
    ∀ (fs : FsState) (q : FsPath), q ∈ l →
      fsExists (l.foldl (fun acc x => if fsExists acc x then acc else x :: acc) fs) q
        = true := by
  induction l with
  | nil =>
    intro fs q h
    cases h
  | cons x rest ih =>
    intro fs q h
    rw [List.foldl_cons]
    rcases List.mem_cons.mp h with he | hm
    · subst he
      apply fsExists_foldl_mono
      by_cases hx : fsExists fs q = true
      · rw [if_pos hx]
        exact hx
      · rw [if_neg hx]
        simp [fsExists]
    · exact ih _ q hm

/-- Every path the fold can add comes from the folded list. -/
theorem fsExists_foldl_inv (l : List FsPath) :
    ∀ (fs : FsState) (q : FsPath),
      (l.foldl (fun acc x => if fsExists acc x then acc else x :: acc) fs).contains q
          = true →
      q ∈ l ∨ fs.contains q = true := by
  induction l with
  | nil =>
    intro fs q h
    exact Or.inr h
  | cons x rest ih =>
    intro fs q h
    rw [List.foldl_cons] at h
    rcases ih _ q h with hm | hc
    · exact Or.inl (List.mem_cons_of_mem x hm)
    · by_cases hx : fsExists fs x = true
      · rw [if_pos hx] at hc
        exact Or.inr hc
      · rw [if_neg hx] at hc
        simp only [List.contains_cons, Bool.or_eq_true] at hc
        rcases hc with he | hc
        · exact Or.inl (List.mem_cons.mpr (Or.inl (by simpa using he)))
        · exact Or.inr hc

/-- `touch_dir` creates its argument. -/
theorem touch_dir_exists (fs : FsState) (p : FsPath) :
    fsExists (touch_dir fs p) p = true := by
  cases hp : p with
  | nil => simp [fsExists]
  | cons a t =>
    apply fsExists_foldl_mem
    refine List.mem_map.mpr ⟨p.length - 1, ?_, ?_⟩
    · refine List.mem_range.mpr ?_
      rw [hp]
      simp
    · rw [← hp]
      have hlen : 0 < p.length := by rw [hp]; simp
      rw [show p.length - 1 + 1 = p.length from by omega]
      exact List.take_length p

/-- `touch_dir` only creates prefixes of its argument, never the longer
path `p` itself: its additions are all strictly shorter than `p`. -/
theorem touch_dir_not_creates_longer (fs : FsState) (par p : FsPath)
    (hlen : par.length < p.length) (hc : fs.contains p = false) :
    (touch_dir fs par).contains p = false := by
  by_contra hcon
  have hcon' : (touch_dir fs par).contains p = true := by
    cases hx : (touch_dir fs par).contains p
    · exact absurd hx hcon
    · rfl
  rcases fsExists_foldl_inv (prefixList par) fs p hcon' with hm | hfs
  · rcases List.mem_map.mp hm with ⟨i, hi, heq⟩
    have : p.length ≤ par.length := by
      rw [← heq]
      simp [Nat.min_le_right]
    omega
  · rw [hfs] at hc
    cases hc

/-- Specification of `ensure_directory`: `Ok(true)` exactly when the
path was missing; on `Ok(false)` the state is unchanged; on `Ok(true)`
the path exists afterwards and nothing is removed. -/
theorem ensure_directory_spec (fs : FsState) (p : FsPath) (b : Bool) (fs2 : FsState)
    (h : ensure_directory fs p = .ok (b, fs2)) :
    (b = true ↔ fsExists fs p = false) ∧
    (b = false → fs2 = fs) ∧
    (b = true → fsExists fs2 p = true ∧
      ∀ q, fsExists fs q = true → fsExists fs2 q = true) := by
  unfold ensure_directory at h
  by_cases hex : fsExists fs p = true
  · rw [if_pos hex] at h
    cases h
    refine ⟨by simp [hex], fun _ => rfl, by simp⟩
  · rw [if_neg hex] at h
    cases h
    refine ⟨by simpa using hex, by simp, fun _ => ?_⟩
    exact ⟨touch_dir_exists fs p, fun q hq => fsExists_foldl_mono (prefixList p) fs q hq⟩

/-- Specification of `ensure_file`: `Ok(true)` exactly when the path
was missing; on `Ok(false)` the state is unchanged; on `Ok(true)` the
file and its parent directory exist afterwards and nothing is
removed. -/
theorem ensure_file_spec (fs : FsState) (p : FsPath) (b : Bool) (fs2 : FsState)
    (h : ensure_file fs p = .ok (b, fs2)) :
    (b = true ↔ fsExists fs p = false) ∧
    (b = false → fs2 = fs) ∧
    (b = true → fsExists fs2 p = true ∧ fsExists fs2 p.dropLast = true ∧
      ∀ q, fsExists fs q = true → fsExists fs2 q = true) := by
  unfold ensure_file at h
  by_cases hex : fsExists fs p = true
  · rw [if_pos hex] at h
    cases h
    refine ⟨by simp [hex], fun _ => rfl, by simp⟩
  · rw [if_neg hex] at h
    have hpne : p ≠ [] := by
      intro he
      subst he
      simp [fsExists] at hex
    have hpar : parentOf p = some p.dropLast := by
      cases p with
      | nil => exact absurd rfl hpne
      | cons a t => rfl
    rw [hpar] at h
    have hcontains : fs.contains p = false := by
      simp only [fsExists, Bool.or_eq_true] at hex
      cases hc : fs.contains p
      · rfl
      · exact absurd (Or.inr hc) hex
    have hplen : 0 < p.length := List.length_pos.mpr hpne
    have hdrop : p.dropLast.length < p.length := by
      rw [List.length_dropLast]
      omega
    have hpmem : p ∉ fs := by simpa using hcontains
    by_cases hparex : fsExists fs p.dropLast = true
    · simp [touch, hpar, hparex, hcontains, hpmem] at h
      obtain ⟨hb, hfs⟩ := h
      subst hb
      subst hfs
      refine ⟨by simpa using hex, by simp, fun _ => ?_⟩
      refine ⟨by simp [fsExists], ?_, ?_⟩
      · simp only [fsExists, List.contains_cons, Bool.or_eq_true] at hparex ⊢
        tauto
      · intro q hq
        simp only [fsExists, List.contains_cons, Bool.or_eq_true] at hq ⊢
        tauto
    · have hnc := touch_dir_not_creates_longer fs p.dropLast p hdrop hcontains
      have hncm : p ∉ touch_dir fs p.dropLast := by simpa using hnc
      simp [touch, hpar, hparex, touch_dir_exists, hnc, hncm] at h
      obtain ⟨hb, hfs⟩ := h
      subst hb
      subst hfs
      refine ⟨by simpa using hex, by simp, fun _ => ?_⟩
      refine ⟨by simp [fsExists], ?_, ?_⟩
      · have hd := touch_dir_exists fs p.dropLast
        simp only [fsExists, List.contains_cons, Bool.or_eq_true] at hd ⊢
        tauto
      · intro q hq
        have hm := fsExists_foldl_mono (prefixList p.dropLast) fs q hq
        simp only [touch_dir, fsExists, List.contains_cons, Bool.or_eq_true] at hm ⊢
        tauto

/-- C10: `ensure_file(path)` and `ensure_directory(path)` return
`Ok(true)` exactly when the path did not exist beforehand, in which
case the call creates it (together with a missing parent directory
chain for `ensure_file`) and removes nothing; when they return
`Ok(false)` the path already existed and the filesystem state is left
unchanged. -/
theorem ensure_file_directory_spec (fs : FsState) (p : FsPath) (b : Bool) (fs2 : FsState) :
    (ensure_file fs p = .ok (b, fs2) →
      ((b = true ↔ fsExists fs p = false) ∧
        (b = false → fs2 = fs) ∧
        (b = true → fsExists fs2 p = true ∧ fsExists fs2 p.dropLast = true ∧
          ∀ q, fsExists fs q = true → fsExists fs2 q = true))) ∧
    (ensure_directory fs p = .ok (b, fs2) →
      ((b = true ↔ fsExists fs p = false) ∧
        (b = false → fs2 = fs) ∧
        (b = true → fsExists fs2 p = true ∧
          ∀ q, fsExists fs q = true → fsExists fs2 q = true))) :=
  ⟨ensure_file_spec fs p b fs2, ensure_directory_spec fs p b fs2⟩

/-- Witness for C10: creating `/home/u/f` in the empty filesystem
creates the file and its parent chain. -/
theorem ensure_file_directory_spec_witness :
    ensure_file [] ["home", "u", "f"]
      = .ok (true, [["home", "u", "f"], ["home", "u"], ["home"]]) ∧
    fsExists [["home", "u", "f"], ["home", "u"], ["home"]] ["home", "u", "f"] = true ∧
    fsExists [["home", "u", "f"], ["home", "u"], ["home"]] ["home", "u"] = true := by
  have h := (ensure_file_directory_spec [] ["home", "u", "f"] true
    [["home", "u", "f"], ["home", "u"], ["home"]]).1 rfl
  exact ⟨rfl, (h.2.2 rfl).1, (h.2.2 rfl).2.1⟩

end Boxxy
